import Mathlib

set_option maxRecDepth 4000

/-!
Verification development for the patent ingestion-and-indexing pipeline of
`app_gemini.py` (Patent Insight AI Dashboard).

The Python source is shallowly embedded: every external effect (PDF parsing,
the generation call, the embedding call, the random source, the clock) is an
explicit input, and each repository function becomes a pure Lean function of
those inputs.  Python strings are `String` (lists of code points), Python
floats are `Float` (no float arithmetic is performed by the modelled code),
Python dicts produced by `json.loads` are association lists with insertion
order and unique keys.
-/

/-! ## Python string primitives used by the source -/

/-- Whitespace stripped by Python `str.strip()` (ASCII fragment). -/
def isPySpace (c : Char) : Bool :=
  (c == ' ') || (c == '\t') || (c == '\n') || (c == '\r') || (c == '\x0b') || (c == '\x0c')

/-- Python `str.strip()` on a list of characters: drop leading and trailing
whitespace. -/
def pyStrip (s : List Char) : List Char :=
  ((s.dropWhile isPySpace).reverse.dropWhile isPySpace).reverse

/-- Python `str.strip()` on a string. -/
def pyStripStr (s : String) : String :=
  String.mk (pyStrip s.data)

/-- Python slicing `s[:n]`: the first `n` code points of `s`. -/
def pyTake (s : String) (n : Nat) : String :=
  String.mk (s.data.take n)

/-- Fuelled worker for Python `str.split(sep)`: splits at each leftmost
non-overlapping occurrence of `sep`.  The fuel only has to dominate the length
of the input; `splitOnL` always supplies enough. -/
def splitOnAux (sep : List Char) : Nat → List Char → List (List Char)
  | _, [] => [[]]
  | 0, s => [s]
  | fuel + 1, c :: rest =>
    if sep.isPrefixOf (c :: rest) && !sep.isEmpty then
      [] :: splitOnAux sep fuel (List.drop (sep.length - 1) rest)
    else
      match splitOnAux sep fuel rest with
      | [] => [[c]]
      | h :: t => (c :: h) :: t

/-- Python `str.split(sep)` for a non-empty separator. -/
def splitOnL (sep s : List Char) : List (List Char) :=
  splitOnAux sep s.length s

/-- Python substring containment `sep in s`. -/
def containsSub (sep : List Char) : List Char → Bool
  | [] => sep.isEmpty
  | c :: rest => sep.isPrefixOf (c :: rest) || containsSub sep rest

/-! ## The code-fence stripping of `summarize_patent_with_gemini` -/

/-- The characters of the language-tagged fence marker. -/
def fenceJson : List Char := ['`', '`', '`', 'j', 's', 'o', 'n']

/-- The characters of the plain fence marker. -/
def fence : List Char := ['`', '`', '`']

/-- The fence-stripping logic of `summarize_patent_with_gemini`
(`app_gemini.py` lines 136-143):
if `"```json" in content` take `content.split("```json")[1].split("```")[0].strip()`,
else if `"```" in content` take `content.split("```")[1].split("```")[0].strip()`,
else `content.strip()`. -/
def stripFencesCore (content : List Char) : List Char :=
  if containsSub fenceJson content then
    pyStrip ((splitOnL fence ((splitOnL fenceJson content).getD 1 [])).getD 0 [])
  else if containsSub fence content then
    pyStrip ((splitOnL fence ((splitOnL fence content).getD 1 [])).getD 0 [])
  else
    pyStrip content

/-- String-level wrapper for the fence stripping. -/
def stripFences (content : String) : String :=
  String.mk (stripFencesCore content.data)

/-! ## A model of `json.loads` on the flat-object fragment

Modelled from the spec: the source calls the standard-library `json.loads`,
which is not part of this repository.  The model below implements standard
JSON semantics restricted to the fragment exercised here: an object whose
values are escape-free strings, with JSON whitespace, where a duplicate key
overwrites the earlier value in place, and where trailing non-whitespace makes
the document invalid (CPython raises "Extra data"). -/

/-- JSON inter-token whitespace. -/
def isJsonWs (c : Char) : Bool :=
  (c == ' ') || (c == '\t') || (c == '\n') || (c == '\r')

/-- Skip JSON whitespace. -/
def skipWs (s : List Char) : List Char := s.dropWhile isJsonWs

/-- Scan an escape-free JSON string body up to the closing quote. -/
def parseStrAux : List Char → Option (List Char × List Char)
  | [] => none
  | c :: rest =>
    if c == '"' then some ([], rest)
    else
      match parseStrAux rest with
      | none => none
      | some (cs, r) => some (c :: cs, r)

/-- Insert a key/value pair with Python-dict semantics: a duplicate key keeps
its original position and takes the new value, a new key is appended. -/
def insertAssoc (l : List (String × String)) (k v : String) : List (String × String) :=
  if (l.map Prod.fst).contains k then
    l.map (fun p => if p.1 = k then (k, v) else p)
  else
    l ++ [(k, v)]

/-- Parse a non-empty sequence of `"key" : "value"` pairs of an object body,
returning the accumulated pairs and the input after the closing brace. -/
def parsePairsAux : Nat → List Char → List (String × String) →
    Option (List (String × String) × List Char)
  | 0, _, _ => none
  | fuel + 1, s, acc =>
    match skipWs s with
    | '"' :: rest =>
      match parseStrAux rest with
      | none => none
      | some (kcs, r1) =>
        match skipWs r1 with
        | ':' :: r2 =>
          match skipWs r2 with
          | '"' :: r3 =>
            match parseStrAux r3 with
            | none => none
            | some (vcs, r4) =>
              match skipWs r4 with
              | ',' :: r5 => parsePairsAux fuel r5 (insertAssoc acc (String.mk kcs) (String.mk vcs))
              | '\x7d' :: r5 => some (insertAssoc acc (String.mk kcs) (String.mk vcs), r5)
              | _ => none
          | _ => none
        | _ => none
    | _ => none

/-- The flat-object fragment of `json.loads` on characters. -/
def parseFlatL (s : List Char) : Option (List (String × String)) :=
  match skipWs s with
  | '\x7b' :: rest =>
    match skipWs rest with
    | '\x7d' :: r2 => if (skipWs r2).isEmpty then some [] else none
    | _ =>
      match parsePairsAux (s.length + 1) rest [] with
      | none => none
      | some (obj, r2) => if (skipWs r2).isEmpty then some obj else none
  | _ => none

/-- The flat-object fragment of `json.loads` on strings. -/
def parseFlat (s : String) : Option (List (String × String)) :=
  parseFlatL s.data

/-! ## Summarizer (`summarize_patent_with_gemini`, lines 107-161) -/

/-- The required summary fields, in the order the source iterates them. -/
def requiredFields : List String := ["title", "problem", "solution", "effect", "category"]

/-- The sentinel value the source substitutes for a missing field. -/
def sentinelValue : String := "情報なし"

/-- The backfill loop of `summarize_patent_with_gemini` (lines 148-151):
`for field in required_fields: if field not in summary: summary[field] = "情報なし"`. -/
def backfill (summary : List (String × String)) : List (String × String) :=
  requiredFields.foldl
    (fun s f => if (s.map Prod.fst).contains f then s else s ++ [(f, sentinelValue)])
    summary

/-- `summarize_patent_with_gemini` as a function of the generation call's
outcome (`none` models any raised exception, `some content` the response
text): strip optional fences, parse as JSON, backfill missing required
fields; any parse failure yields `None`. -/
def summarize_patent_with_gemini (resp : Option String) : Option (List (String × String)) :=
  match resp with
  | none => none
  | some content =>
    match parseFlat (stripFences content) with
    | none => none
    | some obj => some (backfill obj)

/-! ## Text extractor (`extract_text_from_pdf`, lines 93-105) -/

/-- `extract_text_from_pdf` as a function of the `PdfReader` outcome:
`none` models a parsing exception; `some pages` gives each page's
`extract_text()` result (`none` for Python `None`).  Pages with falsy text
are skipped, others are appended followed by a newline, and the total is
stripped. -/
def extract_text_from_pdf (parse : Option (List (Option String))) : Option String :=
  match parse with
  | none => none
  | some pages =>
    some (pyStripStr (pages.foldl
      (fun text p =>
        match p with
        | none => text
        | some pt => if pt = "" then text else text ++ pt ++ "\n")
      ""))

/-! ## Embedder (`generate_embeddings_with_gemini`, lines 163-183) -/

/-- `np.random.rand n`: a vector of `n` draws from the random source. -/
def npRandomRand (src : Nat → Float) (n : Nat) : List Float :=
  (List.range n).map src

/-- `generate_embeddings_with_gemini` as a function of the embedding call's
outcome: the API vector on success, and on any failure the fallback
`np.random.rand(768).tolist()`. -/
def generate_embeddings_with_gemini (resp : Option (List Float)) (src : Nat → Float) : List Float :=
  match resp with
  | some v => v
  | none => npRandomRand src 768

/-! ## Record store and ingestion loop (tab1, lines 396-441) -/

/-- A stored patent record (`patent_data`, lines 424-435). -/
structure PatentRecord where
  id : String
  filename : String
  title : String
  problem : String
  solution : String
  effect : String
  category : String
  full_text : String
  embedding : List Float
  processed_at : String

/-- One uploaded file together with the outcomes of the external calls made
while processing it. -/
structure FileInput where
  name : String
  parse : Option (List (Option String))
  genResp : Option String
  embedResp : Option (List Float)
  randSrc : Nat → Float
  now : String

/-- Decimal digit to character. -/
def digitChar (d : Nat) : Char := Char.ofNat (48 + d)

/-- Decimal rendering of a natural number, most significant digit first
(empty for `0`, as the zero-padding below always covers that case). -/
def natChars (n : Nat) : List Char :=
  ((Nat.digits 10 n).reverse).map digitChar

/-- Python `f"{n:06d}"`: zero-pad the decimal rendering to width 6. -/
def padSixChars (n : Nat) : List Char :=
  List.replicate (6 - (natChars n).length) '0' ++ natChars n

/-- The id assigned at ingestion time (line 425):
`f"JP2024{len(st.session_state.patents):06d}"` with `n` the current store
length. -/
def mkId (n : Nat) : String :=
  String.mk (['J', 'P', '2', '0', '2', '4'] ++ padSixChars n)

/-- Python dict lookup on the summary (defaults to `""`; the pipeline only
looks up keys the backfill guarantees to be present). -/
def lookupD (l : List (String × String)) (k : String) : String :=
  match l.find? (fun p => p.1 == k) with
  | some p => p.2
  | none => ""

/-- The `patent_data` dict built at lines 424-435 for the `n`-th stored
record. -/
def mkRecord (n : Nat) (f : FileInput) (text : String) (summary : List (String × String)) :
    PatentRecord :=
  { id := mkId n
    filename := f.name
    title := lookupD summary "title"
    problem := lookupD summary "problem"
    solution := lookupD summary "solution"
    effect := lookupD summary "effect"
    category := lookupD summary "category"
    full_text := pyTake text 500 ++ "..."
    embedding := generate_embeddings_with_gemini f.embedResp f.randSrc
    processed_at := f.now }

/-- The per-file stage chain of the ingestion loop: `none` exactly at the two
`continue` points (`if not text` at line 402, `if not summary` at line 412;
both Python falsiness checks). -/
def fileOutcome (f : FileInput) : Option (String × List (String × String)) :=
  match extract_text_from_pdf f.parse with
  | none => none
  | some text =>
    if text = "" then none
    else
      match summarize_patent_with_gemini f.genResp with
      | none => none
      | some summary =>
        if summary.isEmpty then none else some (text, summary)

/-- One iteration of the ingestion loop: on failure the store is untouched,
on success the freshly built record is appended (line 437). -/
def processFile (patents : List PatentRecord) (f : FileInput) : List PatentRecord :=
  match fileOutcome f with
  | none => patents
  | some (text, summary) => patents ++ [mkRecord patents.length f text summary]

/-- The whole batch loop over the uploaded files (lines 396-441). -/
def processBatch (patents : List PatentRecord) (files : List FileInput) : List PatentRecord :=
  files.foldl processFile patents

/-- The session states reachable from the initial empty store via batch
ingestions (tab1) and the full clear of the sidebar button
(`st.session_state.patents = []`, line 341). -/
inductive Reachable : List PatentRecord → Prop where
  | nil : Reachable []
  | ingest (s : List PatentRecord) (files : List FileInput) :
      Reachable s → Reachable (processBatch s files)
  | clear (s : List PatentRecord) : Reachable s → Reachable []

/-! ## Portfolio analyzer entry (tab2, lines 512-558) -/

/-- What tab2 renders, as a function of the record count: the empty-store
notice, the below-threshold warning, or the analysis with its cluster count
and its t-SNE neighborhood-size parameter. -/
inductive DashboardView where
  | noData : DashboardView
  | needMoreData : Nat → DashboardView
  | analysis : Nat → Nat → DashboardView
deriving DecidableEq

/-- The tab2 dispatch: `if len == 0` the notice, `elif len < 3` the warning,
else clustering with `n_clusters = min(3, len)` (line 551) and projection
with `perplexity = min(30, len - 1)` (line 557). -/
def dashboard (n : Nat) : DashboardView :=
  if n = 0 then DashboardView.noData
  else if n < 3 then DashboardView.needMoreData n
  else DashboardView.analysis (min 3 n) (min 30 (n - 1))

/-! ## Numeric helpers for id reasoning -/

/-- Read a digit string back as a number (leading zeros ignored). -/
def parseDec (cs : List Char) : Nat :=
  cs.foldl (fun a c => 10 * a + (c.toNat - 48)) 0

/-- The numeric part of a stored id. -/
def idNum (s : String) : Nat := parseDec (s.data.drop 6)

/-! ## Concrete inputs used by witnesses and counterexamples -/

/-- A file whose every external call succeeds: one PDF page, a minimal JSON
object response, a one-component embedding vector. -/
def sampleFile (nm pg : String) : FileInput :=
  { name := nm
    parse := some [some pg]
    genResp := some "\x7b\x7d"
    embedResp := some [(0.5 : Float)]
    randSrc := fun _ => (0.0 : Float)
    now := "2025-01-01 00:00:00" }

/-- A file whose PDF parsing raises, so extraction fails. -/
def failingFile : FileInput :=
  { name := "f3.pdf"
    parse := none
    genResp := some "\x7b\x7d"
    embedResp := some [(0.5 : Float)]
    randSrc := fun _ => (0.0 : Float)
    now := "2025-01-01 00:00:00" }

/-- A batch of five files in which only the third fails (its extraction
raises). -/
def fiveBatch : List FileInput :=
  [sampleFile "f1.pdf" "alpha", sampleFile "f2.pdf" "bravo", failingFile,
   sampleFile "f4.pdf" "delta", sampleFile "f5.pdf" "echo"]

/-- The record the pipeline builds for a `sampleFile` stored at index `n`. -/
def expectedRecord (n : Nat) (nm text : String) : PatentRecord :=
  { id := mkId n
    filename := nm
    title := sentinelValue
    problem := sentinelValue
    solution := sentinelValue
    effect := sentinelValue
    category := sentinelValue
    full_text := pyTake text 500 ++ "..."
    embedding := [(0.5 : Float)]
    processed_at := "2025-01-01 00:00:00" }

/-- The four records the five-file batch should yield. -/
def expectedFour : List PatentRecord :=
  [expectedRecord 0 "f1.pdf" "alpha", expectedRecord 1 "f2.pdf" "bravo",
   expectedRecord 2 "f4.pdf" "delta", expectedRecord 3 "f5.pdf" "echo"]

/-- A successful file whose embedding call fails, taking the random
768-dimensional fallback. -/
def fallbackFile : FileInput :=
  { name := "fb.pdf"
    parse := some [some "gamma"]
    genResp := some "\x7b\x7d"
    embedResp := none
    randSrc := fun _ => (0.0 : Float)
    now := "2025-01-01 00:00:00" }

/-- A successful file whose embedding call returns a vector of length 1. -/
def shortEmbedFile : FileInput :=
  { name := "se.pdf"
    parse := some [some "hotel"]
    genResp := some "\x7b\x7d"
    embedResp := some [(0.5 : Float)]
    randSrc := fun _ => (0.0 : Float)
    now := "2025-01-01 00:00:00" }

/-- A model response that is a JSON object with the five required fields plus
one extra field. -/
def sixFieldResp : String :=
  "\x7b\"title\":\"t\",\"problem\":\"p\",\"solution\":\"s\",\"effect\":\"e\",\"category\":\"c\",\"extra\":\"x\"\x7d"

/-- A valid JSON object body whose single value contains a fenced block:
`{"a":"``` {} ```"}`. -/
def trickyBody : String := "\x7b\"a\":\"``` \x7b\x7d ```\"\x7d"

/-! ## Lemmas about `pyStrip` -/

theorem dropWhile_head_false {p : Char → Bool} {l : List Char} {c : Char}
    (h : (l.dropWhile p).head? = some c) : p c = false := by
  induction l with
  | nil => simp [List.dropWhile] at h
  | cons a l ih =>
    rw [List.dropWhile_cons] at h
    by_cases hp : p a = true
    · exact ih (by simpa [hp] using h)
    · simp only [hp, if_false] at h
      simp only [List.head?] at h
      cases h
      simpa using hp

theorem dropWhile_eq_self_of_head {p : Char → Bool} {l : List Char}
    (h : ∀ c, l.head? = some c → p c = false) : l.dropWhile p = l := by
  cases l with
  | nil => rfl
  | cons a l => rw [List.dropWhile_cons, h a rfl]; simp

theorem dropWhile_idem (p : Char → Bool) (l : List Char) :
    (l.dropWhile p).dropWhile p = l.dropWhile p :=
  dropWhile_eq_self_of_head (fun _ hc => dropWhile_head_false hc)

theorem pyStrip_cons_space {c : Char} (hc : isPySpace c = true) (s : List Char) :
    pyStrip (c :: s) = pyStrip s := by
  unfold pyStrip
  rw [List.dropWhile_cons, hc]
  simp

theorem pyStrip_append_space {c : Char} (hc : isPySpace c = true) (s : List Char) :
    pyStrip (s ++ [c]) = pyStrip s := by
  unfold pyStrip
  rw [List.dropWhile_append]
  by_cases h : (s.dropWhile isPySpace).isEmpty = true
  · rw [if_pos h]
    rw [List.isEmpty_iff] at h
    rw [h]
    simp [List.dropWhile, hc]
  · rw [if_neg h]
    rw [List.reverse_append]
    simp only [List.reverse_cons, List.reverse_nil, List.nil_append, List.singleton_append]
    rw [List.dropWhile_cons, hc]
    simp

theorem pyStrip_getLast_false {s : List Char} {c : Char}
    (h : (pyStrip s).reverse.head? = some c) : isPySpace c = false := by
  unfold pyStrip at h
  rw [List.reverse_reverse] at h
  exact dropWhile_head_false h

theorem pyStrip_head_false {s : List Char} {c : Char}
    (h : (pyStrip s).head? = some c) : isPySpace c = false := by
  unfold pyStrip at h
  rw [List.head?_reverse] at h
  have hsplit := List.takeWhile_append_dropWhile isPySpace (s.dropWhile isPySpace).reverse
  have hu : ((s.dropWhile isPySpace).reverse).getLast? = some c := by
    rw [← hsplit, List.getLast?_append, h]
    rfl
  rw [List.getLast?_reverse] at hu
  exact dropWhile_head_false hu

theorem pyStrip_idem (s : List Char) : pyStrip (pyStrip s) = pyStrip s := by
  have h1 : (pyStrip s).dropWhile isPySpace = pyStrip s :=
    dropWhile_eq_self_of_head (fun c hc => pyStrip_head_false hc)
  have h2 : (pyStrip s).reverse.dropWhile isPySpace = (pyStrip s).reverse :=
    dropWhile_eq_self_of_head (fun c hc => pyStrip_getLast_false hc)
  show ((((pyStrip s).dropWhile isPySpace).reverse.dropWhile isPySpace)).reverse = pyStrip s
  rw [h1, h2, List.reverse_reverse]

/-! ## Lemmas about `splitOnL` and `containsSub` -/

theorem splitOnAux_ne_nil (sep : List Char) (fuel : Nat) (s : List Char) :
    splitOnAux sep fuel s ≠ [] := by
  cases s with
  | nil => simp [splitOnAux]
  | cons c rest =>
    cases fuel with
    | zero => simp [splitOnAux]
    | succ k =>
      simp only [splitOnAux]
      split
      · simp
      · split <;> simp

theorem splitOnAux_fuel (sep : List Char) :
    ∀ (fuel fuel' : Nat) (s : List Char), s.length ≤ fuel → s.length ≤ fuel' →
      splitOnAux sep fuel s = splitOnAux sep fuel' s := by
  intro fuel
  induction fuel with
  | zero =>
    intro fuel' s hs _
    have : s = [] := List.eq_nil_of_length_eq_zero (Nat.le_zero.mp hs)
    subst this
    simp [splitOnAux]
  | succ k ih =>
    intro fuel' s hs hs'
    cases s with
    | nil => simp [splitOnAux]
    | cons c rest =>
      cases fuel' with
      | zero => simp at hs'
      | succ k' =>
        have hrest : rest.length ≤ k := by simpa using hs
        have hrest' : rest.length ≤ k' := by simpa using hs'
        have hdrop : (List.drop (sep.length - 1) rest).length ≤ rest.length := by
          rw [List.length_drop]; omega
        simp only [splitOnAux]
        by_cases h : (sep.isPrefixOf (c :: rest) && !sep.isEmpty) = true
        · simp only [h, if_true]
          exact congrArg _ (ih k' _ (le_trans hdrop hrest) (le_trans hdrop hrest'))
        · rw [Bool.not_eq_true] at h
          rw [h]
          simp only [Bool.false_eq_true, if_false]
          rw [ih k' rest hrest hrest']

theorem splitOnAux_eq_splitOnL (sep : List Char) {fuel : Nat} {s : List Char}
    (h : s.length ≤ fuel) : splitOnAux sep fuel s = splitOnL sep s :=
  splitOnAux_fuel sep fuel s.length s h le_rfl

theorem splitOnL_ne_nil (sep s : List Char) : splitOnL sep s ≠ [] :=
  splitOnAux_ne_nil sep s.length s

theorem splitOnL_append_notMem {c₀ : Char} {t A : List Char}
    (hA : ∀ a ∈ A, a ≠ c₀) (s : List Char) :
    splitOnL (c₀ :: t) (A ++ s) = (splitOnL (c₀ :: t) s).modifyHead (A ++ ·) := by
  induction A with
  | nil =>
    rw [List.nil_append]
    cases hr : splitOnL (c₀ :: t) s with
    | nil => exact absurd hr (splitOnL_ne_nil _ _)
    | cons h' t' => simp [List.modifyHead]
  | cons a A ih =>
    have ha : (c₀ == a) = false := beq_eq_false_iff_ne.mpr (Ne.symm (hA a (by simp)))
    have hA' : ∀ x ∈ A, x ≠ c₀ := fun x hx => hA x (by simp [hx])
    rw [List.cons_append]
    show splitOnAux (c₀ :: t) (a :: (A ++ s)).length (a :: (A ++ s)) = _
    rw [List.length_cons]
    simp only [splitOnAux]
    have hpre : (c₀ :: t).isPrefixOf (a :: (A ++ s)) = false := by
      simp [List.isPrefixOf, ha]
    rw [hpre]
    simp only [Bool.false_and, Bool.false_eq_true, if_false]
    rw [show splitOnAux (c₀ :: t) (A ++ s).length (A ++ s) = splitOnL (c₀ :: t) (A ++ s) from rfl,
      ih hA']
    cases hr : splitOnL (c₀ :: t) s with
    | nil => exact absurd hr (splitOnL_ne_nil _ _)
    | cons h' t' => simp [List.modifyHead]

theorem splitOnL_self_append {c₀ : Char} {t : List Char} (s : List Char) :
    splitOnL (c₀ :: t) ((c₀ :: t) ++ s) = [] :: splitOnL (c₀ :: t) s := by
  rw [List.cons_append]
  show splitOnAux (c₀ :: t) (c₀ :: (t ++ s)).length (c₀ :: (t ++ s)) = _
  rw [List.length_cons]
  simp only [splitOnAux]
  have hpre : (c₀ :: t).isPrefixOf (c₀ :: (t ++ s)) = true := by
    rw [List.isPrefixOf_iff_prefix]
    exact ⟨s, by simp⟩
  rw [hpre]
  simp only [Bool.true_and, List.isEmpty_cons, Bool.not_false, if_true]
  rw [show (c₀ :: t).length - 1 = t.length by simp]
  rw [List.drop_left]
  rw [splitOnAux_eq_splitOnL _ (by simp)]

theorem containsSub_append_left {c₀ : Char} {t A : List Char}
    (hA : ∀ a ∈ A, a ≠ c₀) (s : List Char) :
    containsSub (c₀ :: t) (A ++ s) = containsSub (c₀ :: t) s := by
  induction A with
  | nil => simp
  | cons a A ih =>
    have ha : (c₀ == a) = false := beq_eq_false_iff_ne.mpr (Ne.symm (hA a (by simp)))
    have hA' : ∀ x ∈ A, x ≠ c₀ := fun x hx => hA x (by simp [hx])
    rw [List.cons_append]
    simp only [containsSub]
    have hpre : (c₀ :: t).isPrefixOf (a :: (A ++ s)) = false := by
      simp [List.isPrefixOf, ha]
    rw [hpre, ih hA']
    simp

theorem containsSub_eq_false {c₀ : Char} {t A : List Char}
    (hA : ∀ a ∈ A, a ≠ c₀) : containsSub (c₀ :: t) A = false := by
  have h := containsSub_append_left (t := t) hA []
  rw [List.append_nil] at h
  rw [h]
  simp [containsSub]

theorem containsSub_self_append {c₀ : Char} {t : List Char} (s : List Char) :
    containsSub (c₀ :: t) ((c₀ :: t) ++ s) = true := by
  rw [List.cons_append]
  simp only [containsSub]
  have hpre : (c₀ :: t).isPrefixOf (c₀ :: (t ++ s)) = true := by
    rw [List.isPrefixOf_iff_prefix]
    exact ⟨s, by simp⟩
  rw [hpre]
  simp

/-! ## Lemmas about id rendering -/

theorem parseDec_zeros (k : Nat) :
    List.foldl (fun a c => 10 * a + (c.toNat - 48)) 0 (List.replicate k '0') = 0 := by
  induction k with
  | zero => rfl
  | succ n ih =>
    rw [List.replicate_succ, List.foldl_cons]
    have h0 : 10 * 0 + (('0' : Char).toNat - 48) = 0 := rfl
    rw [h0]
    exact ih

theorem parseDec_replicate (k : Nat) (cs : List Char) :
    parseDec (List.replicate k '0' ++ cs) = parseDec cs := by
  unfold parseDec
  rw [List.foldl_append, parseDec_zeros]

theorem digitChar_val {d : Nat} (h : d < 10) : (digitChar d).toNat - 48 = d := by
  unfold digitChar
  interval_cases d <;> rfl

theorem parseDec_digits : ∀ (ds : List Nat), (∀ d ∈ ds, d < 10) →
    parseDec ((ds.reverse).map digitChar) = Nat.ofDigits 10 ds := by
  intro ds
  induction ds with
  | nil => intro _; rfl
  | cons d ds ih =>
    intro hb
    have ihv := ih (fun x hx => hb x (List.mem_cons_of_mem _ hx))
    have hd : d < 10 := hb d (List.mem_cons_self _ _)
    unfold parseDec at ihv ⊢
    rw [List.reverse_cons, List.map_append, List.foldl_append, ihv]
    simp only [List.map_cons, List.map_nil, List.foldl_cons, List.foldl_nil]
    rw [digitChar_val hd, Nat.ofDigits_cons]
    ring

theorem parseDec_natChars (n : Nat) : parseDec (natChars n) = n := by
  unfold natChars
  rw [parseDec_digits _ (fun d hd => Nat.digits_lt_base (by norm_num) hd)]
  exact Nat.ofDigits_digits 10 n

theorem parseDec_padSix (n : Nat) : parseDec (padSixChars n) = n := by
  unfold padSixChars
  rw [parseDec_replicate, parseDec_natChars]

theorem mkId_injective : Function.Injective mkId := by
  intro m n h
  unfold mkId at h
  injection h with h
  have h2 := List.append_cancel_left h
  have h3 := congrArg parseDec h2
  rwa [parseDec_padSix, parseDec_padSix] at h3

theorem idNum_mkId (n : Nat) : idNum (mkId n) = n := by
  show parseDec (List.drop 6 (['J', 'P', '2', '0', '2', '4'] ++ padSixChars n)) = n
  rw [show (6 : Nat) = (['J', 'P', '2', '0', '2', '4'] : List Char).length from rfl,
    List.drop_left]
  exact parseDec_padSix n

/-! ## Lemmas about the ingestion loop -/

theorem processFile_none {f : FileInput} (h : fileOutcome f = none)
    (s : List PatentRecord) : processFile s f = s := by
  unfold processFile
  rw [h]

theorem processFile_some {f : FileInput} {text : String} {summary : List (String × String)}
    (h : fileOutcome f = some (text, summary)) (s : List PatentRecord) :
    processFile s f = s ++ [mkRecord s.length f text summary] := by
  unfold processFile
  rw [h]

theorem processBatch_nil (s : List PatentRecord) : processBatch s [] = s := rfl

theorem processBatch_cons (s : List PatentRecord) (f : FileInput) (fs : List FileInput) :
    processBatch s (f :: fs) = processBatch (processFile s f) fs := rfl

theorem processBatch_append_form :
    ∀ (files : List FileInput) (s : List PatentRecord),
      ∃ new, processBatch s files = s ++ new ∧ new.length ≤ files.length := by
  intro files
  induction files with
  | nil => intro s; exact ⟨[], by simp [processBatch_nil]⟩
  | cons f fs ih =>
    intro s
    rw [processBatch_cons]
    cases hf : fileOutcome f with
    | none =>
      rw [processFile_none hf]
      obtain ⟨new, hn, hl⟩ := ih s
      exact ⟨new, hn, by simp only [List.length_cons]; omega⟩
    | some ts =>
      obtain ⟨text, summary⟩ := ts
      rw [processFile_some hf]
      obtain ⟨new, hn, hl⟩ := ih (s ++ [mkRecord s.length f text summary])
      refine ⟨[mkRecord s.length f text summary] ++ new, ?_, ?_⟩
      · rw [hn, List.append_assoc]
      · simp only [List.length_append, List.length_cons, List.length_nil]
        omega

theorem ids_processFile {s : List PatentRecord}
    (h : s.map (·.id) = (List.range s.length).map mkId) (f : FileInput) :
    (processFile s f).map (·.id) = (List.range (processFile s f).length).map mkId := by
  cases hf : fileOutcome f with
  | none => rw [processFile_none hf]; exact h
  | some ts =>
    obtain ⟨text, summary⟩ := ts
    rw [processFile_some hf]
    simp only [List.map_append, List.length_append, List.map_cons, List.map_nil,
      List.length_cons, List.length_nil]
    rw [h, List.range_succ, List.map_append]
    rfl

theorem ids_processBatch :
    ∀ (files : List FileInput) (s : List PatentRecord),
      s.map (·.id) = (List.range s.length).map mkId →
      (processBatch s files).map (·.id) = (List.range (processBatch s files).length).map mkId := by
  intro files
  induction files with
  | nil => intro s h; exact h
  | cons f fs ih =>
    intro s h
    rw [processBatch_cons]
    exact ih _ (ids_processFile h f)

theorem ids_reachable {s : List PatentRecord} (h : Reachable s) :
    s.map (·.id) = (List.range s.length).map mkId := by
  induction h with
  | nil => rfl
  | ingest s files _ ih => exact ids_processBatch files s ih
  | clear s _ _ => rfl

/-! ## Lemmas about the backfill loop -/

theorem mem_backfillAux :
    ∀ (fields : List String) (s : List (String × String)) (p : String × String),
      p ∈ s →
      p ∈ fields.foldl
        (fun s f => if (s.map Prod.fst).contains f then s else s ++ [(f, sentinelValue)]) s := by
  intro fields
  induction fields with
  | nil => intro s p hp; exact hp
  | cons g fields ih =>
    intro s p hp
    rw [List.foldl_cons]
    apply ih
    by_cases h : ((s.map Prod.fst).contains g) = true
    · rw [if_pos h]; exact hp
    · rw [if_neg h]; exact List.mem_append_left _ hp

theorem keys_backfillAux_sub :
    ∀ (fields : List String) (s : List (String × String)) (k : String),
      k ∈ (fields.foldl
        (fun s f => if (s.map Prod.fst).contains f then s else s ++ [(f, sentinelValue)])
          s).map Prod.fst →
      k ∈ s.map Prod.fst ∨ k ∈ fields := by
  intro fields
  induction fields with
  | nil => intro s k hk; exact Or.inl hk
  | cons g fields ih =>
    intro s k hk
    rw [List.foldl_cons] at hk
    rcases ih _ k hk with h | h
    · by_cases hg : ((s.map Prod.fst).contains g) = true
      · rw [if_pos hg] at h; exact Or.inl h
      · rw [if_neg hg, List.map_append] at h
        rcases List.mem_append.mp h with h | h
        · exact Or.inl h
        · simp only [List.map_cons, List.map_nil, List.mem_singleton] at h
          subst h
          exact Or.inr (List.mem_cons_self _ _)
    · exact Or.inr (List.mem_cons_of_mem _ h)

theorem keys_mono_backfillAux
    (fields : List String) (s : List (String × String)) (k : String)
    (hk : k ∈ s.map Prod.fst) :
    k ∈ (fields.foldl
      (fun s f => if (s.map Prod.fst).contains f then s else s ++ [(f, sentinelValue)])
        s).map Prod.fst := by
  obtain ⟨p, hp, hpk⟩ := List.mem_map.mp hk
  exact List.mem_map.mpr ⟨p, mem_backfillAux fields s p hp, hpk⟩

theorem keys_backfillAux_cover :
    ∀ (fields : List String) (s : List (String × String)) (f : String), f ∈ fields →
      f ∈ (fields.foldl
        (fun s f => if (s.map Prod.fst).contains f then s else s ++ [(f, sentinelValue)])
          s).map Prod.fst := by
  intro fields
  induction fields with
  | nil => intro s f hf; cases hf
  | cons g fields ih =>
    intro s f hf
    rw [List.foldl_cons]
    rcases List.mem_cons.mp hf with rfl | hf'
    · apply keys_mono_backfillAux
      by_cases h : ((s.map Prod.fst).contains f) = true
      · rw [if_pos h]; simpa using h
      · rw [if_neg h, List.map_append]; simp
    · exact ih _ f hf'

theorem sentinel_backfillAux :
    ∀ (fields : List String) (s : List (String × String)) (f : String),
      fields.Nodup → f ∈ fields → f ∉ s.map Prod.fst →
      (f, sentinelValue) ∈ fields.foldl
        (fun s f => if (s.map Prod.fst).contains f then s else s ++ [(f, sentinelValue)]) s := by
  intro fields
  induction fields with
  | nil => intro s f _ hf _; cases hf
  | cons g fields ih =>
    intro s f hnd hf hfs
    rw [List.foldl_cons]
    rcases List.mem_cons.mp hf with rfl | hf'
    · have h : ¬ ((s.map Prod.fst).contains f = true) := fun hc => hfs (by simpa using hc)
      rw [if_neg h]
      exact mem_backfillAux fields _ _ (List.mem_append_right _ (List.mem_singleton.mpr rfl))
    · have hg : f ≠ g := by
        rintro rfl
        exact (List.nodup_cons.mp hnd).1 hf'
      refine ih _ f (List.nodup_cons.mp hnd).2 hf' ?_
      by_cases h : ((s.map Prod.fst).contains g) = true
      · rw [if_pos h]; exact hfs
      · rw [if_neg h, List.map_append]
        intro hmem
        rcases List.mem_append.mp hmem with hm | hm
        · exact hfs hm
        · simp only [List.map_cons, List.map_nil, List.mem_singleton] at hm
          exact hg hm

/-! ## Lemmas about the extractor's page loop -/

theorem extract_foldl_data :
    ∀ (pages : List (Option String)) (init : String),
      (pages.foldl (fun text p =>
          match p with
          | none => text
          | some pt => if pt = "" then text else text ++ pt ++ "\n") init).data =
        init.data ++ (((pages.filterMap id).filter (fun t => !(t == ""))).map
          (fun t => t.data ++ ['\n'])).flatten := by
  intro pages
  induction pages with
  | nil => intro init; simp
  | cons p pages ih =>
    intro init
    rw [List.foldl_cons]
    cases p with
    | none =>
      dsimp only
      rw [ih, List.filterMap_cons_none rfl]
    | some pt =>
      dsimp only
      by_cases h : pt = ""
      · subst h
        rw [if_pos rfl, ih, @List.filterMap_cons_some _ _ id (some "") pages "" rfl,
          List.filter_cons_of_neg (by simp)]
      · rw [if_neg h, ih]
        rw [@List.filterMap_cons_some _ _ id (some pt) pages pt rfl, List.filter_cons_of_pos (by simp [h]),
          List.map_cons, List.flatten_cons]
        rw [String.data_append, String.data_append,
          show ("\n" : String).data = ['\n'] from rfl]
        simp [List.append_assoc]

/-! ## Lemmas about the fence stripping -/

theorem splitOnL_of_notMem {c₀ : Char} (t : List Char) {A : List Char}
    (hA : ∀ a ∈ A, a ≠ c₀) : splitOnL (c₀ :: t) A = [A] := by
  have h := @splitOnL_append_notMem c₀ t A hA []
  rw [List.append_nil] at h
  rw [h]
  simp [splitOnL, splitOnAux, List.modifyHead]

theorem splitOnL_fenceJson_self_append (s : List Char) :
    splitOnL fenceJson (fenceJson ++ s) = [] :: splitOnL fenceJson s :=
  splitOnL_self_append s

theorem splitOnL_fence_self_append (s : List Char) :
    splitOnL fence (fence ++ s) = [] :: splitOnL fence s :=
  splitOnL_self_append s

theorem splitOnL_fenceJson_append_notMem {A : List Char} (hA : ∀ a ∈ A, a ≠ '`')
    (s : List Char) :
    splitOnL fenceJson (A ++ s) = (splitOnL fenceJson s).modifyHead (A ++ ·) :=
  splitOnL_append_notMem hA s

theorem splitOnL_fence_append_notMem {A : List Char} (hA : ∀ a ∈ A, a ≠ '`')
    (s : List Char) :
    splitOnL fence (A ++ s) = (splitOnL fence s).modifyHead (A ++ ·) :=
  splitOnL_append_notMem hA s

theorem splitOnL_fence_of_notMem {A : List Char} (hA : ∀ a ∈ A, a ≠ '`') :
    splitOnL fence A = [A] :=
  splitOnL_of_notMem _ hA

theorem containsSub_fenceJson_append_left {A : List Char} (hA : ∀ a ∈ A, a ≠ '`')
    (s : List Char) :
    containsSub fenceJson (A ++ s) = containsSub fenceJson s :=
  containsSub_append_left hA s

theorem stripFencesCore_plain {B : List Char} (hB : ∀ c ∈ B, c ≠ '`') :
    stripFencesCore B = pyStrip B := by
  have h1 : containsSub fenceJson B = false := containsSub_eq_false hB
  have h2 : containsSub fence B = false := containsSub_eq_false hB
  unfold stripFencesCore
  rw [h1, h2]
  simp

theorem noBacktick_wrap {B : List Char} (hB : ∀ c ∈ B, c ≠ '`') :
    ∀ a ∈ '\n' :: (B ++ ['\n']), a ≠ '`' := by
  intro a ha
  rcases List.mem_cons.mp ha with rfl | ha'
  · decide
  · rcases List.mem_append.mp ha' with hb | hn
    · exact hB a hb
    · rw [List.mem_singleton] at hn; subst hn; decide

theorem wrap_append_fence (B : List Char) :
    ('\n' :: (B ++ ['\n'])) ++ fence = '\n' :: (B ++ '\n' :: fence) := by
  simp

theorem pyStrip_wrap (B : List Char) : pyStrip ('\n' :: (B ++ ['\n'])) = pyStrip B := by
  rw [pyStrip_cons_space (by decide), pyStrip_append_space (by decide)]

theorem stripFencesCore_tagged {B : List Char} (hB : ∀ c ∈ B, c ≠ '`') :
    stripFencesCore (fenceJson ++ ('\n' :: (B ++ '\n' :: fence))) = pyStrip B := by
  have hA := noBacktick_wrap hB
  have hcj : containsSub fenceJson (fenceJson ++ ('\n' :: (B ++ '\n' :: fence))) = true :=
    containsSub_self_append _
  have hsplit2 : splitOnL fenceJson ('\n' :: (B ++ '\n' :: fence)) =
      [('\n' :: (B ++ '\n' :: fence))] := by
    rw [← wrap_append_fence, splitOnL_fenceJson_append_notMem hA fence,
      show splitOnL fenceJson fence = [fence] from by decide]
    simp [List.modifyHead]
  have hsplit3 : splitOnL fence (('\n' :: (B ++ ['\n'])) ++ fence) =
      [('\n' :: (B ++ ['\n'])), []] := by
    rw [splitOnL_fence_append_notMem hA fence,
      show splitOnL fence fence = [[], []] from by decide]
    simp [List.modifyHead]
  unfold stripFencesCore
  rw [hcj, if_pos rfl, splitOnL_fenceJson_self_append, hsplit2]
  simp only [List.getD_cons_succ, List.getD_cons_zero]
  rw [← wrap_append_fence, hsplit3]
  simp only [List.getD_cons_zero]
  exact pyStrip_wrap B

theorem stripFencesCore_untagged {B : List Char} (hB : ∀ c ∈ B, c ≠ '`') :
    stripFencesCore (fence ++ ('\n' :: (B ++ '\n' :: fence))) = pyStrip B := by
  have hA := noBacktick_wrap hB
  have hA' : ∀ a ∈ B ++ ['\n'], a ≠ '`' := fun a ha => hA a (List.mem_cons_of_mem _ ha)
  have htail : containsSub fenceJson (B ++ '\n' :: fence) = false := by
    rw [show B ++ '\n' :: fence = (B ++ ['\n']) ++ fence from by simp,
      containsSub_fenceJson_append_left hA']
    decide
  have hncj : containsSub fenceJson (fence ++ ('\n' :: (B ++ '\n' :: fence))) = false := by
    show containsSub fenceJson ('`' :: '`' :: '`' :: '\n' :: (B ++ '\n' :: fence)) = false
    simp only [containsSub, fenceJson, List.isPrefixOf, beq_self_eq_true, Bool.true_and,
      show (('j' : Char) == '\n') = false from by decide,
      show (('`' : Char) == '\n') = false from by decide,
      Bool.false_and, Bool.false_or]
    simpa [fenceJson] using htail
  have hcf : containsSub fence (fence ++ ('\n' :: (B ++ '\n' :: fence))) = true :=
    containsSub_self_append _
  have hsplit2 : splitOnL fence ('\n' :: (B ++ '\n' :: fence)) =
      [('\n' :: (B ++ ['\n'])), []] := by
    rw [← wrap_append_fence, splitOnL_fence_append_notMem hA fence,
      show splitOnL fence fence = [[], []] from by decide]
    simp [List.modifyHead]
  unfold stripFencesCore
  rw [hncj]
  simp only [Bool.false_eq_true, if_false]
  rw [hcf, if_pos rfl, splitOnL_fence_self_append, hsplit2]
  simp only [List.getD_cons_succ, List.getD_cons_zero]
  rw [splitOnL_fence_of_notMem hA]
  simp only [List.getD_cons_zero]
  exact pyStrip_wrap B

/-! ## Claim theorems -/

/-- C1: a failure of Extract or Summarize for one file aborts only that file: a batch of
`N` files appends between `0` and `N` new records to the store, a failed file leaves the
store completely unchanged (no partial record is committed), and the concrete batch of
five files whose third file fails extraction yields exactly the four records of the other
files, in order, with their content unchanged. -/
theorem claim1_per_file_failure_isolation :
    (∀ (s : List PatentRecord) (files : List FileInput),
        ∃ new, processBatch s files = s ++ new ∧ new.length ≤ files.length) ∧
    (∀ (s : List PatentRecord) (f : FileInput),
        fileOutcome f = none → processFile s f = s) ∧
    processBatch [] fiveBatch = expectedFour := by
  refine ⟨fun s files => processBatch_append_form files s,
    fun s f h => processFile_none h s, ?_⟩
  rfl

/-- C1 witness: the failing third file of the batch, processed alone, leaves the store
untouched. -/
theorem claim1_witness : processFile [] failingFile = [] :=
  claim1_per_file_failure_isolation.2.1 [] failingFile rfl

/-- C2 counterexample: a model response that is a JSON object with the five required
fields plus a sixth field `extra` makes the summarizer succeed with a six-field object,
so the returned summary does not contain exactly five fields. -/
theorem claim2_extra_field_cex :
    summarize_patent_with_gemini (some sixFieldResp) =
      some [("title", "t"), ("problem", "p"), ("solution", "s"), ("effect", "e"),
        ("category", "c"), ("extra", "x")] ∧
    ([("title", "t"), ("problem", "p"), ("solution", "s"), ("effect", "e"),
        ("category", "c"), ("extra", "x")] : List (String × String)).length ≠ 5 :=
  ⟨rfl, by decide⟩

/-- C2 (amended): whenever the summarizer succeeds, the returned object contains at
least the five required fields — any absent one is backfilled with the sentinel — every
parsed pair is retained (so extra fields from the model survive), and no key appears
that is neither parsed nor required. -/
theorem claim2_fields_backfilled :
    ∀ (content : String) (obj : List (String × String)),
      parseFlat (stripFences content) = some obj →
      summarize_patent_with_gemini (some content) = some (backfill obj) ∧
      (∀ f ∈ requiredFields, f ∈ (backfill obj).map Prod.fst) ∧
      (∀ p ∈ obj, p ∈ backfill obj) ∧
      (∀ f ∈ requiredFields, f ∉ obj.map Prod.fst → (f, sentinelValue) ∈ backfill obj) ∧
      (∀ k ∈ (backfill obj).map Prod.fst, k ∈ obj.map Prod.fst ∨ k ∈ requiredFields) := by
  intro content obj h
  refine ⟨?_, ?_, ?_, ?_, ?_⟩
  · unfold summarize_patent_with_gemini
    dsimp only
    rw [h]
  · intro f hf
    exact keys_backfillAux_cover requiredFields obj f hf
  · intro p hp
    exact mem_backfillAux requiredFields obj p hp
  · intro f hf hnk
    exact sentinel_backfillAux requiredFields obj f (by decide) hf hnk
  · intro k hk
    exact keys_backfillAux_sub requiredFields obj k hk

/-- C2 witness: on the empty-object response the summarizer succeeds and the backfilled
result carries all five required fields. -/
theorem claim2_witness :
    summarize_patent_with_gemini (some "\x7b\x7d") = some (backfill []) ∧
    (∀ f ∈ requiredFields, f ∈ (backfill []).map Prod.fst) :=
  ⟨(claim2_fields_backfilled "\x7b\x7d" [] rfl).1,
   (claim2_fields_backfilled "\x7b\x7d" [] rfl).2.1⟩

theorem npRandomRand_length (src : Nat → Float) (n : Nat) :
    (npRandomRand src n).length = n := by
  unfold npRandomRand
  rw [List.length_map, List.length_range]

/-- C3: under the external interface contract that a successful embedding response is a
768-vector, the embedder always returns a vector of length 768; on failure it returns
exactly the random fallback vector, which has length 768 unconditionally, so the
embedding stage is total. -/
theorem claim3_embedder_fixed_dim :
    ∀ (resp : Option (List Float)) (src : Nat → Float),
      (∀ v, resp = some v → v.length = 768) →
      (generate_embeddings_with_gemini resp src).length = 768 ∧
      generate_embeddings_with_gemini none src = npRandomRand src 768 ∧
      (npRandomRand src 768).length = 768 := by
  intro resp src hv
  refine ⟨?_, rfl, npRandomRand_length src 768⟩
  cases resp with
  | none => exact npRandomRand_length src 768
  | some v => exact hv v rfl

/-- C3 witness: concrete success and failure inputs both produce 768 components. -/
theorem claim3_witness :
    (generate_embeddings_with_gemini (some (List.replicate 768 (0.0 : Float)))
      (fun _ => 0.0)).length = 768 ∧
    (generate_embeddings_with_gemini none (fun _ => (0.0 : Float))).length = 768 :=
  ⟨(claim3_embedder_fixed_dim (some (List.replicate 768 (0.0 : Float))) (fun _ => 0.0)
      (fun v hv => by injection hv with h; rw [← h, List.length_replicate])).1,
   (claim3_embedder_fixed_dim none (fun _ => (0.0 : Float))
      (fun v hv => Option.noConfusion hv)).1⟩

/-- C4 counterexample: the commit step performs no embedding-length validation — after a
fallback-embedded record of length 768 is stored, a record whose embedding call returned
a length-1 vector is admitted all the same, leaving the store with two different
embedding lengths. -/
theorem claim4_mismatch_admitted_cex :
    (processBatch [] [fallbackFile, shortEmbedFile]).map (fun r => r.embedding.length) =
      [768, 1] ∧ (768 : Nat) ≠ 1 :=
  ⟨rfl, by decide⟩

/-- C4 (amended): the pipeline never checks embedding lengths at commit; the store-wide
constant-length invariant holds exactly under the external interface contract that every
successful embedding response has length 768 (the failure fallback always does). -/
theorem claim4_uniform_under_contract :
    ∀ (files : List FileInput) (s : List PatentRecord),
      (∀ r ∈ s, r.embedding.length = 768) →
      (∀ f ∈ files, ∀ v, f.embedResp = some v → v.length = 768) →
      ∀ r ∈ processBatch s files, r.embedding.length = 768 := by
  intro files
  induction files with
  | nil => intro s hs _ r hr; exact hs r hr
  | cons f fs ih =>
    intro s hs hf r hr
    rw [processBatch_cons] at hr
    refine ih (processFile s f) ?_ (fun g hg v hv => hf g (List.mem_cons_of_mem _ hg) v hv) r hr
    intro r' hr'
    cases hout : fileOutcome f with
    | none => rw [processFile_none hout] at hr'; exact hs r' hr'
    | some ts =>
      obtain ⟨text, summary⟩ := ts
      rw [processFile_some hout] at hr'
      rcases List.mem_append.mp hr' with hmem | hmem
      · exact hs r' hmem
      · rw [List.mem_singleton] at hmem
        subst hmem
        show (generate_embeddings_with_gemini f.embedResp f.randSrc).length = 768
        cases hres : f.embedResp with
        | none => simp [generate_embeddings_with_gemini, npRandomRand]
        | some v => exact hf f (List.mem_cons_self _ _) v hres

/-- C4 witness: the record built from the fallback-embedded file carries a length-768
embedding. -/
theorem claim4_witness :
    (mkRecord 0 fallbackFile "gamma" (backfill [])).embedding.length = 768 := by
  have hmem : mkRecord 0 fallbackFile "gamma" (backfill []) ∈ processBatch [] [fallbackFile] := by
    rw [show processBatch [] [fallbackFile] =
      [mkRecord 0 fallbackFile "gamma" (backfill [])] from rfl]
    exact List.mem_singleton.mpr rfl
  exact claim4_uniform_under_contract [fallbackFile] []
    (fun r hr => absurd hr (List.not_mem_nil r))
    (fun f hf v hv => by
      rw [List.mem_singleton] at hf
      subst hf
      exact Option.noConfusion hv)
    (mkRecord 0 fallbackFile "gamma" (backfill [])) hmem

/-- C5: in every reachable session state the stored ids are pairwise distinct, their
numeric parts strictly increase along the store, and ingesting a further batch never
assigns a new record an id already carried by an existing record. -/
theorem claim5_id_unique_monotone :
    ∀ (s : List PatentRecord), Reachable s →
      ((s.map (·.id)).Nodup ∧
       List.Pairwise (· < ·) ((s.map (·.id)).map idNum) ∧
       ∀ (files : List FileInput), ∀ r ∈ (processBatch s files).drop s.length,
         r.id ∉ s.map (·.id)) := by
  intro s hs
  have hids := ids_reachable hs
  refine ⟨?_, ?_, ?_⟩
  · rw [hids]
    exact List.Nodup.map mkId_injective (List.nodup_range _)
  · rw [hids, List.map_map]
    have hcongr : (List.range s.length).map (idNum ∘ mkId) = List.range s.length := by
      simp [Function.comp_def, idNum_mkId]
    rw [hcongr]
    exact List.pairwise_lt_range _
  · intro files r hr
    obtain ⟨new, hn, _⟩ := processBatch_append_form files s
    rw [hn, List.drop_left] at hr
    have hall := ids_processBatch files s hids
    rw [hn, List.map_append, hids, List.length_append, List.range_add,
      List.map_append] at hall
    have hnew := List.append_cancel_left hall
    rw [List.map_map] at hnew
    intro hmem
    have h1 : r.id ∈ new.map (·.id) := List.mem_map.mpr ⟨r, hr, rfl⟩
    rw [hnew] at h1
    obtain ⟨i, hi, hei⟩ := List.mem_map.mp h1
    simp only [Function.comp] at hei
    rw [hids] at hmem
    obtain ⟨k, hk, hek⟩ := List.mem_map.mp hmem
    have hik : s.length + i = k := mkId_injective (hei.trans hek.symm)
    rw [List.mem_range] at hi hk
    omega

/-- C5 witness: a store reached by ingesting one successful file has distinct ids with
increasing numeric parts. -/
theorem claim5_witness :
    ((processBatch [] [sampleFile "w.pdf" "whiskey"]).map (·.id)).Nodup ∧
    List.Pairwise (· < ·)
      (((processBatch [] [sampleFile "w.pdf" "whiskey"]).map (·.id)).map idNum) :=
  ⟨(claim5_id_unique_monotone _
      (Reachable.ingest [] [sampleFile "w.pdf" "whiskey"] Reachable.nil)).1,
   (claim5_id_unique_monotone _
      (Reachable.ingest [] [sampleFile "w.pdf" "whiskey"] Reachable.nil)).2.1⟩

/-- C6 counterexample: `trickyBody` is a valid JSON object body, yet wrapping it in the
language-tagged fence makes the stripped content unparseable while the bare response
strips to the inner fenced block and parses to the empty object — the three cases do not
yield the identical parsed JSON object. -/
theorem claim6_fence_cex :
    parseFlat trickyBody = some [("a", "``` \x7b\x7d ```")] ∧
    parseFlat (stripFences ("```json\n" ++ trickyBody ++ "\n```")) = none ∧
    parseFlat (stripFences trickyBody) = some [] :=
  ⟨rfl, rfl, rfl⟩

/-- C6 (amended): for any body containing no backtick character, a response wrapping it
in a language-tagged fence, an untagged fence, or no fence at all strips to the same
string, and hence parses to the identical JSON object in all three cases. -/
theorem claim6_fence_invariance :
    ∀ (B : String), (∀ c ∈ B.data, c ≠ '`') →
      stripFences ("```json\n" ++ B ++ "\n```") = stripFences B ∧
      stripFences ("```\n" ++ B ++ "\n```") = stripFences B ∧
      parseFlat (stripFences ("```json\n" ++ B ++ "\n```")) = parseFlat (stripFences B) ∧
      parseFlat (stripFences ("```\n" ++ B ++ "\n```")) = parseFlat (stripFences B) := by
  intro B hB
  have hdata1 : ("```json\n" ++ B ++ "\n```").data =
      fenceJson ++ ('\n' :: (B.data ++ '\n' :: fence)) := by
    rw [String.data_append, String.data_append]
    rw [show ("```json\n" : String).data = fenceJson ++ ['\n'] from rfl,
      show ("\n```" : String).data = '\n' :: fence from rfl]
    simp [List.append_assoc]
  have hdata2 : ("```\n" ++ B ++ "\n```").data =
      fence ++ ('\n' :: (B.data ++ '\n' :: fence)) := by
    rw [String.data_append, String.data_append]
    rw [show ("```\n" : String).data = fence ++ ['\n'] from rfl,
      show ("\n```" : String).data = '\n' :: fence from rfl]
    simp [List.append_assoc]
  have h1 : stripFences ("```json\n" ++ B ++ "\n```") = stripFences B := by
    unfold stripFences
    rw [hdata1, stripFencesCore_tagged hB, stripFencesCore_plain hB]
  have h2 : stripFences ("```\n" ++ B ++ "\n```") = stripFences B := by
    unfold stripFences
    rw [hdata2, stripFencesCore_untagged hB, stripFencesCore_plain hB]
  exact ⟨h1, h2, by rw [h1], by rw [h2]⟩

/-- C6 witness: a concrete backtick-free object body strips identically under both
fence styles. -/
theorem claim6_witness :
    stripFences ("```json\n" ++ "\x7b\"a\":\"b\"\x7d" ++ "\n```") =
      stripFences "\x7b\"a\":\"b\"\x7d" ∧
    stripFences ("```\n" ++ "\x7b\"a\":\"b\"\x7d" ++ "\n```") =
      stripFences "\x7b\"a\":\"b\"\x7d" :=
  ⟨(claim6_fence_invariance "\x7b\"a\":\"b\"\x7d" (by decide)).1,
   (claim6_fence_invariance "\x7b\"a\":\"b\"\x7d" (by decide)).2.1⟩

/-- C7: the dashboard analysis runs if and only if the store holds at least 3 records;
for 0 records it shows the empty-store notice and for 1 or 2 the below-threshold
warning, in both cases without clustering or projecting; when it runs it uses cluster
count `min 3 N` and neighborhood-size parameter `min 30 (N - 1)`. -/
theorem claim7_analyzer_threshold :
    ∀ (n : Nat),
      (dashboard n = DashboardView.analysis (min 3 n) (min 30 (n - 1)) ↔ 3 ≤ n) ∧
      (n = 0 → dashboard n = DashboardView.noData) ∧
      (0 < n → n < 3 → dashboard n = DashboardView.needMoreData n) := by
  intro n
  unfold dashboard
  refine ⟨⟨?_, ?_⟩, ?_, ?_⟩
  · intro h
    by_contra hlt
    push_neg at hlt
    rcases Nat.eq_zero_or_pos n with rfl | hpos
    · rw [if_pos rfl] at h
      exact DashboardView.noConfusion h
    · rw [if_neg (by omega), if_pos (by omega)] at h
      exact DashboardView.noConfusion h
  · intro h
    rw [if_neg (by omega), if_neg (by omega)]
  · rintro rfl
    rw [if_pos rfl]
  · intro h0 h3
    rw [if_neg (by omega), if_pos h3]

/-- C7 witness: with five records the analysis runs with 3 clusters and neighborhood
size 4. -/
theorem claim7_witness : dashboard 5 = DashboardView.analysis 3 4 :=
  (claim7_analyzer_threshold 5).1.mpr (by decide)

/-- C8 counterexample: a payload whose pages all yield empty text makes the extractor
return the empty string — a success value, not the typed failure the claim requires for
the all-pages-empty case. -/
theorem claim8_empty_pages_cex :
    extract_text_from_pdf (some [some "", none]) = some "" ∧
    (some "" : Option String) ≠ none :=
  ⟨rfl, by simp⟩

/-- C8 (amended): the extractor returns the typed failure exactly when PDF parsing
raises; on every parsed payload it returns the whitespace-stripped concatenation of the
nonempty page texts each followed by a newline (the empty string — not a failure — when
every page is empty), and the returned text is already stripped. -/
theorem claim8_extractor_outcomes :
    (∀ p, extract_text_from_pdf p = none ↔ p = none) ∧
    (∀ pages, (extract_text_from_pdf (some pages)).map String.data =
      some (pyStrip (((pages.filterMap id).filter (fun t => !(t == ""))).map
        (fun t => t.data ++ ['\n'])).flatten)) ∧
    (∀ pages t, extract_text_from_pdf (some pages) = some t → pyStripStr t = t) := by
  refine ⟨?_, ?_, ?_⟩
  · intro p
    cases p with
    | none => simp [extract_text_from_pdf]
    | some pages => simp [extract_text_from_pdf]
  · intro pages
    simp only [extract_text_from_pdf, Option.map_some']
    show some (pyStrip ((pages.foldl _ "").data)) = _
    rw [extract_foldl_data pages ""]
    rw [show ("" : String).data = ([] : List Char) from rfl, List.nil_append]
  · intro pages t ht
    simp only [extract_text_from_pdf, Option.some.injEq] at ht
    rw [← ht]
    show String.mk (pyStrip (String.mk (pyStrip _)).data) = _
    rw [show ∀ l : List Char, (String.mk l).data = l from fun _ => rfl]
    rw [pyStrip_idem]
    rfl

/-- C8 witness: a one-page payload of nonempty text extracts to that text, already
stripped. -/
theorem claim8_witness :
    extract_text_from_pdf (some [some "hello"]) = some "hello" ∧
    pyStripStr "hello" = "hello" :=
  ⟨rfl, claim8_extractor_outcomes.2.2 [some "hello"] "hello" rfl⟩

/-- C9 counterexample: the record stored for extracted text `"hello"` carries
`full_text = "hello..."`, which is not a prefix of `"hello"` — the stored excerpt is not
a prefix of the extracted text. -/
theorem claim9_excerpt_cex :
    (processFile [] (sampleFile "h.pdf" "hello")).map (fun r => r.full_text) =
      ["hello..."] ∧
    ("hello...".data.isPrefixOf "hello".data) = false :=
  ⟨rfl, by decide⟩

/-- C9 (amended): for every successfully ingested file the stored `full_text` is the
(at most 500 code point) prefix of the extracted text followed by the literal marker
`"..."`; the prefix part is a genuine bounded-length prefix of the text. -/
theorem claim9_excerpt_prefix_marker :
    ∀ (s : List PatentRecord) (f : FileInput) (text : String)
      (summary : List (String × String)),
      fileOutcome f = some (text, summary) →
      ∃ r, processFile s f = s ++ [r] ∧
        r.full_text = pyTake text 500 ++ "..." ∧
        (pyTake text 500).data <+: text.data ∧
        (pyTake text 500).data.length ≤ 500 := by
  intro s f text summary h
  refine ⟨mkRecord s.length f text summary, processFile_some h s, rfl, ?_, ?_⟩
  · show text.data.take 500 <+: text.data
    exact List.take_prefix 500 text.data
  · show (text.data.take 500).length ≤ 500
    rw [List.length_take]
    exact min_le_left _ _

/-- C9 witness: the concrete file with text `"hotel"` stores excerpt
`"hotel" ++ "..."` whose prefix part is a bounded prefix of the text. -/
theorem claim9_witness :
    ∃ r, processFile [] (sampleFile "h.pdf" "hotel") = [] ++ [r] ∧
      r.full_text = pyTake "hotel" 500 ++ "..." ∧
      (pyTake "hotel" 500).data <+: "hotel".data ∧
      (pyTake "hotel" 500).data.length ≤ 500 :=
  claim9_excerpt_prefix_marker [] (sampleFile "h.pdf" "hotel") "hotel" (backfill []) rfl

/-- C10: ids are derived from the current store length, so after a clear the next
successful ingestion produces a single record whose id is one already carried by the
(now destroyed) records of any nonempty reachable store — uniqueness holds only among
simultaneously present records. -/
theorem claim10_clear_reissues_ids :
    ∀ (s : List PatentRecord) (f : FileInput), Reachable s → s ≠ [] →
      fileOutcome f ≠ none →
      ∃ r, processBatch [] [f] = [r] ∧ r.id ∈ s.map (·.id) := by
  intro s f hreach hne hf
  obtain ⟨ts, hts⟩ := Option.ne_none_iff_exists'.mp hf
  obtain ⟨text, summary⟩ := ts
  refine ⟨mkRecord 0 f text summary, ?_, ?_⟩
  · show processFile [] f = _
    rw [processFile_some hts]
    rfl
  · rw [ids_reachable hreach]
    refine List.mem_map.mpr ⟨0, ?_, rfl⟩
    rw [List.mem_range]
    cases s with
    | nil => exact absurd rfl hne
    | cons a l => simp

/-- C10 witness: after ingesting one file and clearing, re-ingesting the same file
reissues the id of the destroyed record. -/
theorem claim10_witness :
    ∃ r, processBatch [] [sampleFile "w2.pdf" "water"] = [r] ∧
      r.id ∈ (processBatch [] [sampleFile "w2.pdf" "water"]).map (·.id) := by
  apply claim10_clear_reissues_ids _ _
    (Reachable.ingest [] [sampleFile "w2.pdf" "water"] Reachable.nil)
  · intro h
    have h1 : (processBatch [] [sampleFile "w2.pdf" "water"]).length = 1 := rfl
    rw [h] at h1
    simp at h1
  · intro h
    have h2 : (fileOutcome (sampleFile "w2.pdf" "water")).isSome = true := rfl
    rw [h] at h2
    simp at h2
